import Mathlib

/-!
Verification of `src/generate_unique_wasm.py`.

Shallow embedding conventions:
- Python `bytes`/`bytearray` values are `List Nat`, one `Nat` per byte
  (every byte produced by the program is `< 256`, proved where a claim needs it).
- Python strings are represented by their UTF-8 byte sequences, also `List Nat`
  (every string the program builds is ASCII).
- Bitwise steps on small integers are rendered arithmetically:
  `val & 0x7f` is `val % 128`, `val >>= 7` is `val / 128`, and `byte |= 0x80`
  is `byte + 128` (sound because `byte < 128` at that point).
- Fallible library calls are `Option`: `bytes([n])` raises `ValueError` for
  `n > 255`, and `struct.pack('<I', i)` raises `struct.error` for
  `i >= 2^32`; both become `none`.
- `os.urandom(32)` is an injectable random-byte provider `rand : Nat → List Nat`,
  indexed by the iteration counter, as §9 of the design notes prescribes.
- File writes are collected in a list of `(path, contents)` pairs; console
  output is not modelled.
-/

/-- The LEB128 length encoder inlined in `create_custom_section`
(`src/generate_unique_wasm.py` lines 36-45):
```
leb128_len = []
val = content_len
while True:
    byte = val & 0x7f
    val >>= 7
    if val != 0:
        byte |= 0x80
    leb128_len.append(byte)
    if val == 0:
        break
```
The do-while loop becomes recursion on the shifted value. -/
def leb128 (n : Nat) : List Nat :=
  let byte := n % 128
  let val := n / 128
  if val = 0 then [byte] else (byte + 128) :: leb128 val
decreasing_by
  exact Nat.div_lt_self (Nat.pos_of_ne_zero (by omega)) (by omega)

/-- Little-endian base-128 decoding: each byte contributes its low 7 bits. -/
def leb128_decode : List Nat → Nat
  | [] => 0
  | b :: rest => b % 128 + 128 * leb128_decode rest

/-- Continuation shape of a base-128 encoding: every non-final byte has its
high bit set (is in `[128, 256)`), the final byte has it clear (`< 128`). -/
def leb128_shaped : List Nat → Bool
  | [] => false
  | [b] => b < 128
  | b :: rest => 128 ≤ b && b < 256 && leb128_shaped rest

theorem leb128_decode_leb128 (n : Nat) : leb128_decode (leb128 n) = n := by
  induction n using Nat.strong_induction_on with
  | _ n ih =>
    rw [leb128]
    split
    · simp only [leb128_decode]
      omega
    · rename_i h
      simp only [leb128_decode]
      rw [ih (n / 128) (Nat.div_lt_self (Nat.pos_of_ne_zero (by omega)) (by omega))]
      omega

theorem leb128_shaped_leb128 (n : Nat) : leb128_shaped (leb128 n) = true := by
  induction n using Nat.strong_induction_on with
  | _ n ih =>
    rw [leb128]
    split
    · simp only [leb128_shaped, decide_eq_true_eq]
      omega
    · rename_i h
      have hrec := ih (n / 128) (Nat.div_lt_self (Nat.pos_of_ne_zero (by omega)) (by omega))
      have hne : leb128 (n / 128) ≠ [] := by
        intro hnil
        rw [hnil] at hrec
        simp [leb128_shaped] at hrec
      obtain ⟨c, cs, hcons⟩ := List.exists_cons_of_ne_nil hne
      rw [hcons]
      rw [hcons] at hrec
      simp only [leb128_shaped, Bool.and_eq_true, decide_eq_true_eq]
      refine ⟨⟨by omega, by omega⟩, ?_⟩
      exact hrec

theorem leb128_decode_lt (bs : List Nat) : leb128_decode bs < 128 ^ bs.length := by
  induction bs with
  | nil => simp [leb128_decode]
  | cons b rest ih =>
    simp only [leb128_decode, List.length_cons, pow_succ]
    have : b % 128 < 128 := Nat.mod_lt _ (by omega)
    calc b % 128 + 128 * leb128_decode rest
        < 128 * (1 + leb128_decode rest) := by omega
      _ ≤ 128 * 128 ^ rest.length := Nat.mul_le_mul_left 128 (by omega)
      _ = 128 ^ rest.length * 128 := by ring

theorem leb128_length_le (k : Nat) (hk : 1 ≤ k) :
    ∀ n, n < 128 ^ k → (leb128 n).length ≤ k := by
  induction k with
  | zero => omega
  | succ k ihk =>
    intro n hn
    rw [leb128]
    split
    · simp
    · rename_i h
      simp only [List.length_cons]
      have hk1 : 1 ≤ k := by
        by_contra hk0
        have : k = 0 := by omega
        subst this
        simp only [pow_succ, pow_zero, one_mul] at hn
        omega
      have hdivlt : n / 128 < 128 ^ k := by
        apply (Nat.div_lt_iff_lt_mul (show 0 < 128 by omega)).mpr
        calc n < 128 ^ (k + 1) := hn
          _ = 128 ^ k * 128 := by ring
      have := ihk hk1 (n / 128) hdivlt
      omega

theorem leb128_shaped_length_pos (bs : List Nat) (h : leb128_shaped bs = true) :
    1 ≤ bs.length := by
  cases bs with
  | nil => simp [leb128_shaped] at h
  | cons b rest => simp

/-- Minimality: no shaped base-128 encoding of `n` is shorter than `leb128 n`. -/
theorem leb128_minimal (n : Nat) (bs : List Nat)
    (hshape : leb128_shaped bs = true) (hdec : leb128_decode bs = n) :
    (leb128 n).length ≤ bs.length := by
  have h1 : 1 ≤ bs.length := leb128_shaped_length_pos bs hshape
  have h2 : n < 128 ^ bs.length := hdec ▸ leb128_decode_lt bs
  exact leb128_length_le bs.length h1 n h2

theorem leb128_zero : leb128 0 = [0] := by
  rw [leb128]
  norm_num

theorem leb128_300 : leb128 300 = [172, 2] := by
  rw [leb128]
  norm_num
  rw [leb128]
  norm_num

/-- `create_custom_section(name, data)` (lines 24-49).  The argument
`name_bytes` is the UTF-8 encoding of the Python `name` string.  The Python
builds `content = bytes([name_len]) + name_bytes + data`; `bytes([name_len])`
raises `ValueError` when `name_len > 255`, which is the `none` branch here. -/
def create_custom_section (name_bytes data : List Nat) : Option (List Nat) :=
  let name_len := name_bytes.length
  if name_len < 256 then
    let content := name_len :: (name_bytes ++ data)
    let content_len := content.length
    some (0 :: (leb128 content_len ++ content))
  else
    none

/-- `add_custom_section(wasm_data, section_data)` (lines 52-56): header
(first 8 bytes) ++ section ++ rest (everything from byte 8 on). -/
def add_custom_section (wasm_data section_data : List Nat) : List Nat :=
  wasm_data.take 8 ++ section_data ++ wasm_data.drop 8

/-- Modelled from the CPython runtime (not repository code): the decimal
digit characters of `str(n)` for a non-negative integer, as ASCII codes. -/
def decimalBytes (n : Nat) : List Nat :=
  if n < 10 then [48 + n] else decimalBytes (n / 10) ++ [48 + n % 10]
decreasing_by
  exact Nat.div_lt_self (by omega) (by omega)

/-- UTF-8 bytes of the label `f"unique_{i}"` built at line 77; the prefix
bytes spell `unique_` in ASCII. -/
def labelBytes (i : Nat) : List Nat :=
  [117, 110, 105, 113, 117, 101, 95] ++ decimalBytes i

/-- The four bytes of `struct.pack('<I', i)` for in-range `i`:
little-endian base-256 digits. -/
def pack4 (i : Nat) : List Nat :=
  [i % 256, i / 256 % 256, i / 65536 % 256, i / 16777216 % 256]

/-- Modelled from the CPython runtime: `struct.pack('<I', i)` raises
`struct.error` unless `0 <= i < 2^32`. -/
def pack_LE_I (i : Nat) : Option (List Nat) :=
  if i < 4294967296 then some (pack4 i) else none

/-- `unique_data = os.urandom(32) + struct.pack('<I', i)` (line 73), with the
random source injected as `rand`. -/
def unique_data (rand : Nat → List Nat) (i : Nat) : Option (List Nat) :=
  (pack_LE_I i).map (fun tail => rand i ++ tail)

/-- Value of a 4-byte little-endian sequence. -/
def le32_val : List Nat → Nat
  | [a, b, c, d] => a + 256 * b + 65536 * c + 16777216 * d
  | _ => 0

/-- Value of a decimal-digit ASCII string, most significant digit first. -/
def decVal (ds : List Nat) : Nat :=
  ds.foldl (fun acc d => acc * 10 + (d - 48)) 0

theorem le32_val_pack4 (i : Nat) (h : i < 4294967296) : le32_val (pack4 i) = i := by
  simp only [pack4, le32_val]
  omega

theorem decimalBytes_foldl (n : Nat) : ∀ acc : Nat,
    (decimalBytes n).foldl (fun acc d => acc * 10 + (d - 48)) acc
      = acc * 10 ^ (decimalBytes n).length + n := by
  induction n using Nat.strong_induction_on with
  | _ n ih =>
    intro acc
    rw [decimalBytes]
    split
    · simp only [List.foldl_cons, List.foldl_nil, List.length_cons, List.length_nil]
      norm_num
    · rename_i h
      rw [List.foldl_append, List.length_append]
      rw [ih (n / 10) (Nat.div_lt_self (by omega) (by omega))]
      simp only [List.foldl_cons, List.foldl_nil, List.length_cons, List.length_nil]
      rw [pow_succ]
      have : 48 + n % 10 - 48 = n % 10 := by omega
      rw [this]
      ring_nf
      omega

theorem decVal_decimalBytes (n : Nat) : decVal (decimalBytes n) = n := by
  unfold decVal
  rw [decimalBytes_foldl]
  simp

theorem decimalBytes_length_le (k : Nat) (hk : 1 ≤ k) :
    ∀ n, n < 10 ^ k → (decimalBytes n).length ≤ k := by
  induction k with
  | zero => omega
  | succ k ihk =>
    intro n hn
    rw [decimalBytes]
    split
    · simp
    · rename_i h
      rw [List.length_append]
      have hk1 : 1 ≤ k := by
        by_contra hk0
        have : k = 0 := by omega
        subst this
        simp only [pow_succ, pow_zero, one_mul] at hn
        omega
      have hdivlt : n / 10 < 10 ^ k := by
        apply (Nat.div_lt_iff_lt_mul (show 0 < 10 by omega)).mpr
        calc n < 10 ^ (k + 1) := hn
          _ = 10 ^ k * 10 := by ring
      have := ihk hk1 (n / 10) hdivlt
      simp only [List.length_cons, List.length_nil]
      omega

theorem labelBytes_length_lt (i : Nat) (h : i < 4294967296) :
    (labelBytes i).length < 256 := by
  have h10 : i < 10 ^ 10 := by omega
  have := decimalBytes_length_le 10 (by omega) i h10
  simp only [labelBytes, List.length_append, List.length_cons, List.length_nil]
  omega

/-!
SHA-256 (FIPS 180-4), modelled from the CPython runtime's `hashlib.sha256`
(library code, not in the repository).  Words are `Nat` kept below `2^32` by
explicit `% 4294967296`; messages and digests are byte lists.
-/

/-- Right rotation of a 32-bit word (callers keep `x < 2^32`). -/
def rotr32 (x n : Nat) : Nat :=
  (x >>> n) ||| ((x <<< (32 - n)) % 4294967296)

/-- The 64 SHA-256 round constants (FIPS 180-4 table, written in decimal). -/
def sha256K : List Nat :=
  [1116352408, 1899447441, 3049323471, 3921009573,
   961987163, 1508970993, 2453635748, 2870763221,
   3624381080, 310598401, 607225278, 1426881987,
   1925078388, 2162078206, 2614888103, 3248222580,
   3835390401, 4022224774, 264347078, 604807628,
   770255983, 1249150122, 1555081692, 1996064986,
   2554220882, 2821834349, 2952996808, 3210313671,
   3336571891, 3584528711, 113926993, 338241895,
   666307205, 773529912, 1294757372, 1396182291,
   1695183700, 1986661051, 2177026350, 2456956037,
   2730485921, 2820302411, 3259730800, 3345764771,
   3516065817, 3600352804, 4094571909, 275423344,
   430227734, 506948616, 659060556, 883997877,
   958139571, 1322822218, 1537002063, 1747873779,
   1955562222, 2024104815, 2227730452, 2361852424,
   2428436474, 2756734187, 3204031479, 3329325298]

/-- The eight SHA-256 initial hash words (FIPS 180-4, in decimal). -/
def sha256_init : Nat × Nat × Nat × Nat × Nat × Nat × Nat × Nat :=
  (1779033703, 3144134277, 1013904242, 2773480762,
   1359893119, 2600822924, 528734635, 1541459225)

/-- Big-endian 8-byte encoding of the 64-bit message bit length. -/
def be64 (n : Nat) : List Nat :=
  [n / 72057594037927936 % 256, n / 281474976710656 % 256,
   n / 1099511627776 % 256, n / 4294967296 % 256,
   n / 16777216 % 256, n / 65536 % 256, n / 256 % 256, n % 256]

/-- SHA-256 padding: a `0x80` byte, zeros to 56 mod 64, then the bit length. -/
def sha256_pad (msg : List Nat) : List Nat :=
  msg ++ 128 :: (List.replicate ((119 - msg.length % 64) % 64) 0
    ++ be64 (msg.length * 8))

/-- Split a (padded) message into 64-byte chunks. -/
def sha256_chunks (l : List Nat) : List (List Nat) :=
  if h : l = [] then [] else l.take 64 :: sha256_chunks (l.drop 64)
termination_by l.length
decreasing_by
  simp only [List.length_drop]
  have : 0 < l.length := List.length_pos.mpr h
  omega

/-- The value of four big-endian bytes. -/
def be32_word : List Nat → Nat
  | [b0, b1, b2, b3] => ((b0 * 256 + b1) * 256 + b2) * 256 + b3
  | _ => 0

/-- The sixteen 32-bit message words of one 64-byte chunk. -/
def chunk_words (c : List Nat) : List Nat :=
  (List.range 16).map (fun j => be32_word ((c.drop (4 * j)).take 4))

/-- Extend sixteen message words to the 64-entry schedule. -/
def sha256_schedule (c : List Nat) : List Nat :=
  ((List.range 48).foldl (fun w t =>
    let i := t + 16
    let x15 := w.getD (i - 15) 0
    let x2 := w.getD (i - 2) 0
    let s0 := rotr32 x15 7 ^^^ rotr32 x15 18 ^^^ (x15 >>> 3)
    let s1 := rotr32 x2 17 ^^^ rotr32 x2 19 ^^^ (x2 >>> 10)
    w.push ((w.getD (i - 16) 0 + s0 + w.getD (i - 7) 0 + s1) % 4294967296))
    (chunk_words c).toArray).toList

/-- One compression round, consuming one `(k, w)` pair. -/
def sha256_round (s : Nat × Nat × Nat × Nat × Nat × Nat × Nat × Nat)
    (kw : Nat × Nat) : Nat × Nat × Nat × Nat × Nat × Nat × Nat × Nat :=
  match s, kw with
  | (a, b, c, d, e, f, g, hh), (k, w) =>
    let s1 := rotr32 e 6 ^^^ rotr32 e 11 ^^^ rotr32 e 25
    let ch := (e &&& f) ^^^ ((e ^^^ 4294967295) &&& g)
    let temp1 := (hh + s1 + ch + k + w) % 4294967296
    let s0 := rotr32 a 2 ^^^ rotr32 a 13 ^^^ rotr32 a 22
    let maj := (a &&& b) ^^^ (a &&& c) ^^^ (b &&& c)
    let temp2 := (s0 + maj) % 4294967296
    ((temp1 + temp2) % 4294967296, a, b, c, (d + temp1) % 4294967296, e, f, g)

/-- Compress one 64-byte chunk into the running hash value. -/
def sha256_compress (hs : Nat × Nat × Nat × Nat × Nat × Nat × Nat × Nat)
    (c : List Nat) : Nat × Nat × Nat × Nat × Nat × Nat × Nat × Nat :=
  match hs with
  | (h0, h1, h2, h3, h4, h5, h6, h7) =>
    match (sha256K.zip (sha256_schedule c)).foldl sha256_round
        (h0, h1, h2, h3, h4, h5, h6, h7) with
    | (a, b, c', d, e, f, g, hh) =>
      ((h0 + a) % 4294967296, (h1 + b) % 4294967296, (h2 + c') % 4294967296,
       (h3 + d) % 4294967296, (h4 + e) % 4294967296, (h5 + f) % 4294967296,
       (h6 + g) % 4294967296, (h7 + hh) % 4294967296)

/-- The eight final hash words of a message. -/
def sha256_digest_words (msg : List Nat) :
    Nat × Nat × Nat × Nat × Nat × Nat × Nat × Nat :=
  (sha256_chunks (sha256_pad msg)).foldl sha256_compress sha256_init

/-- Big-endian 4-byte serialization of one hash word. -/
def be32bytes (w : Nat) : List Nat :=
  [w / 16777216 % 256, w / 65536 % 256, w / 256 % 256, w % 256]

/-- The 32-byte SHA-256 digest of a message. -/
def sha256_bytes (msg : List Nat) : List Nat :=
  let t := sha256_digest_words msg
  be32bytes t.1 ++ be32bytes t.2.1 ++ be32bytes t.2.2.1 ++ be32bytes t.2.2.2.1
    ++ be32bytes t.2.2.2.2.1 ++ be32bytes t.2.2.2.2.2.1
    ++ be32bytes t.2.2.2.2.2.2.1 ++ be32bytes t.2.2.2.2.2.2.2

/-- ASCII code of a lowercase hexadecimal digit (`0-9`, `a-f`). -/
def hexChar (n : Nat) : Nat :=
  if n < 10 then 48 + n else 87 + n

/-- The two hex characters of one byte. -/
def hexPair (b : Nat) : List Nat :=
  [hexChar (b / 16), hexChar (b % 16)]

/-- ASCII bytes of `hashlib.sha256(msg).hexdigest()`. -/
def sha256_hexdigest (msg : List Nat) : List Nat :=
  ((sha256_bytes msg).map hexPair).flatten

/-- ASCII code of a lowercase hex digit character. -/
def isHexDigit (c : Nat) : Bool :=
  (48 ≤ c && c ≤ 57) || (97 ≤ c && c ≤ 102)

theorem sha256_bytes_length (msg : List Nat) : (sha256_bytes msg).length = 32 := by
  simp [sha256_bytes, be32bytes]

theorem be32bytes_lt (w : Nat) : ∀ b ∈ be32bytes w, b < 256 := by
  intro b hb
  simp only [be32bytes, List.mem_cons, List.not_mem_nil, or_false] at hb
  rcases hb with rfl | rfl | rfl | rfl <;> omega

theorem sha256_bytes_lt (msg : List Nat) : ∀ b ∈ sha256_bytes msg, b < 256 := by
  intro b hb
  simp only [sha256_bytes, List.mem_append] at hb
  rcases hb with ((((((hb | hb) | hb) | hb) | hb) | hb) | hb) | hb <;>
    exact be32bytes_lt _ b hb

theorem hexPair_hex (b : Nat) (hb : b < 256) : ∀ c ∈ hexPair b, isHexDigit c = true := by
  intro c hc
  have h1 : b / 16 < 16 := by omega
  have h2 : b % 16 < 16 := by omega
  simp only [hexPair, List.mem_cons, List.not_mem_nil, or_false] at hc
  rcases hc with rfl | rfl <;>
    · simp only [hexChar, isHexDigit]
      split <;> simp <;> omega

theorem sha256_hexdigest_length (msg : List Nat) :
    (sha256_hexdigest msg).length = 64 := by
  have h : ∀ l : List Nat, ((l.map hexPair).flatten).length = 2 * l.length := by
    intro l
    induction l with
    | nil => simp
    | cons b rest ih =>
      simp only [List.map_cons, List.flatten_cons, List.length_append, ih, hexPair,
        List.length_cons, List.length_nil]
      omega
  rw [sha256_hexdigest, h, sha256_bytes_length]

theorem sha256_hexdigest_hex (msg : List Nat) :
    ∀ c ∈ sha256_hexdigest msg, isHexDigit c = true := by
  intro c hc
  simp only [sha256_hexdigest, List.mem_flatten, List.mem_map] at hc
  obtain ⟨l, ⟨b, hb, rfl⟩, hcl⟩ := hc
  exact hexPair_hex b (sha256_bytes_lt msg b hb) c hcl

/-!
The orchestrator `generate_unique_wasm(source_path, output_dir, count, prefix)`
(lines 59-112).  Strings are UTF-8 byte lists; the loaded source file is the
byte list `source`; file writes are accumulated as `(path, contents)` pairs in
the order they happen, and the manifest as `(path, hexdigest)` pairs, exactly
as the Python list `manifest` holds them.
-/

/-- Modelled from the CPython runtime: `os.path.join(a, b)` (POSIX) — `b` if
it is absolute, otherwise `a` and `b` joined with a `/` (byte 47) unless `a`
is empty or already ends in one. -/
def path_join (a b : List Nat) : List Nat :=
  if b.head? = some 47 then b
  else if a = [] ∨ a.getLast? = some 47 then a ++ b
  else a ++ 47 :: b

/-- Modelled from the CPython runtime: the digits of `f"{i:05d}"` — the
decimal digits of `i`, left-padded with `0` characters to width 5. -/
def pad5bytes (i : Nat) : List Nat :=
  List.replicate (5 - (decimalBytes i).length) 48 ++ decimalBytes i

/-- UTF-8 bytes of the output file name built at line 89,
`f"{prefix}_{i:05d}.wasm"`: prefix, `_` (95), padded index, `.wasm`
(46 119 97 115 109). -/
def filenameBytes (pfx : List Nat) (i : Nat) : List Nat :=
  pfx ++ 95 :: (pad5bytes i ++ [46, 119, 97, 115, 109])

/-- UTF-8 bytes of the fixed manifest file name `manifest.txt` (line 102). -/
def manifestName : List Nat :=
  [109, 97, 110, 105, 102, 101, 115, 116, 46, 116, 120, 116]

/-- Bytes written to `manifest.txt` (lines 103-105): one
`f"{path}\t{hash_val}\n"` line per manifest record (tab is 9, newline 10). -/
def manifestFileBytes (manifest : List (List Nat × List Nat)) : List Nat :=
  (manifest.map (fun pr => pr.1 ++ 9 :: (pr.2 ++ [10]))).flatten

/-- The mutable locals of one run of `generate_unique_wasm`: the source
buffer loaded at line 67, the files written so far, and the manifest list. -/
structure RunState where
  source_data : List Nat
  writes : List (List Nat × List Nat)
  manifest : List (List Nat × List Nat)

/-- One loop iteration (lines 71-94) at index `i`: build the unique data and
the custom section, splice, hash, record the file write and the manifest
entry.  `none` when a library call raises. -/
def gen_step (rand : Nat → List Nat) (source dir pfx : List Nat) (i : Nat) :
    Option ((List Nat × List Nat) × (List Nat × List Nat)) :=
  match unique_data rand i with
  | none => none
  | some ud =>
    match create_custom_section (labelBytes i) ud with
    | none => none
    | some sec =>
      let new_wasm := add_custom_section source sec
      let file_hash := sha256_hexdigest new_wasm
      let output_path := path_join dir (filenameBytes pfx i)
      some ((output_path, new_wasm), (output_path, file_hash))

/-- The custom section of iteration `i`, written out in full: the value
`create_custom_section (labelBytes i) (rand i ++ pack4 i)` takes when it
succeeds. -/
def section_bytes (rand : Nat → List Nat) (i : Nat) : List Nat :=
  let content := (labelBytes i).length :: (labelBytes i ++ (rand i ++ pack4 i))
  0 :: (leb128 content.length ++ content)

/-- The write record and manifest record of a successful iteration `i`. -/
def gen_val (rand : Nat → List Nat) (source dir pfx : List Nat) (i : Nat) :
    (List Nat × List Nat) × (List Nat × List Nat) :=
  let new_wasm := add_custom_section source (section_bytes rand i)
  let output_path := path_join dir (filenameBytes pfx i)
  ((output_path, new_wasm), (output_path, sha256_hexdigest new_wasm))

/-- The `for i in range(1, count + 1)` loop (lines 71-98), with `k` iterations
left and `i` the next index; the state threads the source buffer so that any
mutation of it would be visible. -/
def run_iters (rand : Nat → List Nat) (dir pfx : List Nat) :
    Nat → Nat → RunState → Option RunState
  | _, 0, st => some st
  | i, k + 1, st =>
    match gen_step rand st.source_data dir pfx i with
    | none => none
    | some wm =>
      run_iters rand dir pfx (i + 1) k
        ⟨st.source_data, st.writes ++ [wm.1], st.manifest ++ [wm.2]⟩

/-- `generate_unique_wasm` (lines 59-112): run the loop from index 1 with the
loaded source, then write the manifest file.  The result is the final state
together with the manifest file write. -/
def generate_unique_wasm (rand : Nat → List Nat)
    (source dir pfx : List Nat) (count : Nat) :
    Option (RunState × (List Nat × List Nat)) :=
  match run_iters rand dir pfx 1 count ⟨source, [], []⟩ with
  | none => none
  | some st => some (st, (path_join dir manifestName, manifestFileBytes st.manifest))

theorem gen_step_eq (rand : Nat → List Nat) (source dir pfx : List Nat) (i : Nat)
    (h : i < 4294967296) :
    gen_step rand source dir pfx i = some (gen_val rand source dir pfx i) := by
  have h1 : unique_data rand i = some (rand i ++ pack4 i) := by
    simp [unique_data, pack_LE_I, h]
  have h2 : create_custom_section (labelBytes i) (rand i ++ pack4 i)
      = some (section_bytes rand i) := by
    simp [create_custom_section, section_bytes, labelBytes_length_lt i h]
  rw [gen_step, h1]
  dsimp only
  rw [h2]
  rfl

theorem gen_step_none (rand : Nat → List Nat) (source dir pfx : List Nat) (i : Nat)
    (h : 4294967296 ≤ i) :
    gen_step rand source dir pfx i = none := by
  have hn : ¬ i < 4294967296 := by omega
  simp [gen_step, unique_data, pack_LE_I, hn]

theorem run_iters_ok (rand : Nat → List Nat) (dir pfx : List Nat) :
    ∀ (k i : Nat) (st : RunState), i + k ≤ 4294967296 →
    run_iters rand dir pfx i k st = some
      ⟨st.source_data,
       st.writes ++ (List.range' i k).map
         (fun j => (gen_val rand st.source_data dir pfx j).1),
       st.manifest ++ (List.range' i k).map
         (fun j => (gen_val rand st.source_data dir pfx j).2)⟩ := by
  intro k
  induction k with
  | zero =>
    intro i st _
    simp [run_iters, List.range']
  | succ k ih =>
    intro i st hik
    have hi : i < 4294967296 := by omega
    rw [run_iters, gen_step_eq rand st.source_data dir pfx i hi]
    dsimp only
    rw [ih (i + 1) ⟨st.source_data,
        st.writes ++ [(gen_val rand st.source_data dir pfx i).1],
        st.manifest ++ [(gen_val rand st.source_data dir pfx i).2]⟩ (by omega)]
    simp [List.range'_succ]

theorem run_iters_overflow (rand : Nat → List Nat) (dir pfx : List Nat) :
    ∀ (k i : Nat) (st : RunState), i ≤ 4294967296 → 4294967296 < i + k →
    run_iters rand dir pfx i k st = none := by
  intro k
  induction k with
  | zero => intro i st h1 h2; omega
  | succ k ih =>
    intro i st h1 h2
    rcases Nat.lt_or_ge i 4294967296 with hlt | hge
    · rw [run_iters, gen_step_eq rand st.source_data dir pfx i hlt]
      exact ih (i + 1) _ (by omega) (by omega)
    · rw [run_iters, gen_step_none rand st.source_data dir pfx i hge]

/-- A run with in-range `count` succeeds and is the pointwise image of the
indices `1, ..., count` under `gen_val` applied to the original source. -/
theorem generate_unique_wasm_eq (rand : Nat → List Nat)
    (source dir pfx : List Nat) (count : Nat) (h : count < 4294967296) :
    generate_unique_wasm rand source dir pfx count = some
      (⟨source,
        (List.range' 1 count).map (fun j => (gen_val rand source dir pfx j).1),
        (List.range' 1 count).map (fun j => (gen_val rand source dir pfx j).2)⟩,
       (path_join dir manifestName,
        manifestFileBytes ((List.range' 1 count).map
          (fun j => (gen_val rand source dir pfx j).2)))) := by
  rw [generate_unique_wasm,
    run_iters_ok rand dir pfx count 1 ⟨source, [], []⟩ (by omega)]
  simp

theorem decVal_replicate_zero (k : Nat) :
    List.foldl (fun acc d => acc * 10 + (d - 48)) 0 (List.replicate k 48) = 0 := by
  induction k with
  | zero => rfl
  | succ k ih =>
    rw [List.replicate_succ, List.foldl_cons]
    norm_num
    exact ih

theorem decVal_pad5bytes (i : Nat) : decVal (pad5bytes i) = i := by
  simp only [decVal, pad5bytes]
  rw [List.foldl_append, decVal_replicate_zero]
  have h := decVal_decimalBytes i
  simp only [decVal] at h
  exact h

theorem filenameBytes_inj (pfx : List Nat) (i j : Nat)
    (h : filenameBytes pfx i = filenameBytes pfx j) : i = j := by
  simp only [filenameBytes] at h
  have h1 := List.append_cancel_left h
  injection h1 with _ h2
  have h3 := List.append_cancel_right h2
  have h4 := decVal_pad5bytes i
  rw [← h4, h3, decVal_pad5bytes j]

/-- C1: for a source of length at least 8 and any auxiliary block produced by
`create_custom_section`, the spliced output of `add_custom_section` has length
`length source + length block`. -/
theorem C1_generated_length (w sec name data : List Nat) (hw : 8 ≤ w.length)
    (hsec : create_custom_section name data = some sec) :
    (add_custom_section w sec).length = w.length + sec.length := by
  simp only [add_custom_section, List.length_append, List.length_take, List.length_drop]
  omega

theorem C1_witness :
    8 ≤ ([0, 97, 115, 109, 1, 0, 0, 0] : List Nat).length ∧
    (add_custom_section [0, 97, 115, 109, 1, 0, 0, 0] [0, 1, 0]).length
      = ([0, 97, 115, 109, 1, 0, 0, 0] : List Nat).length + ([0, 1, 0] : List Nat).length :=
  ⟨by decide,
   C1_generated_length [0, 97, 115, 109, 1, 0, 0, 0] [0, 1, 0] [] [] (by decide)
     (by simp [create_custom_section]; rw [leb128]; norm_num)⟩

/-- C2: for a source of length at least 8 and any block `b`, the splice output
is the 8-byte header, then `b`, then the source bytes from offset 8 on. -/
theorem C2_generated_layout (w b : List Nat) (hw : 8 ≤ w.length) :
    (add_custom_section w b).take 8 = w.take 8 ∧
    ((add_custom_section w b).drop 8).take b.length = b ∧
    (add_custom_section w b).drop (8 + b.length) = w.drop 8 := by
  have hlen : (w.take 8).length = 8 := by
    simp only [List.length_take]
    omega
  have h1 : add_custom_section w b = w.take 8 ++ (b ++ w.drop 8) := by
    simp [add_custom_section]
  refine ⟨?_, ?_, ?_⟩
  · rw [h1, List.take_left' hlen]
  · rw [h1, List.drop_left' hlen, List.take_left]
  · rw [h1, show 8 + b.length = (w.take 8 ++ b).length from by
      simp only [List.length_append, hlen], ← List.append_assoc, List.drop_left]

theorem C2_witness :
    8 ≤ ([10, 11, 12, 13, 14, 15, 16, 17, 18, 19] : List Nat).length ∧
    ((add_custom_section [10, 11, 12, 13, 14, 15, 16, 17, 18, 19] [7, 7]).take 8
       = ([10, 11, 12, 13, 14, 15, 16, 17, 18, 19] : List Nat).take 8 ∧
     ((add_custom_section [10, 11, 12, 13, 14, 15, 16, 17, 18, 19] [7, 7]).drop 8).take
         ([7, 7] : List Nat).length = [7, 7] ∧
     (add_custom_section [10, 11, 12, 13, 14, 15, 16, 17, 18, 19] [7, 7]).drop
         (8 + ([7, 7] : List Nat).length)
       = ([10, 11, 12, 13, 14, 15, 16, 17, 18, 19] : List Nat).drop 8) :=
  ⟨by decide, C2_generated_layout [10, 11, 12, 13, 14, 15, 16, 17, 18, 19] [7, 7] (by decide)⟩

/-- C3: the length-prefix encoder emits the minimal base-128 continuation
encoding of every `n` (7 value bits per byte, least-significant group first,
high bit set exactly on non-final bytes), decoding recovers `n`, `0` encodes
as the single byte `0x00`, and `300` as exactly the two bytes `0xAC 0x02`. -/
theorem C3_leb128_minimal_roundtrip :
    (∀ n : Nat, leb128_decode (leb128 n) = n ∧
      leb128_shaped (leb128 n) = true ∧
      ∀ bs : List Nat, leb128_shaped bs = true → leb128_decode bs = n →
        (leb128 n).length ≤ bs.length) ∧
    leb128 0 = [0] ∧ leb128 300 = [172, 2] :=
  ⟨fun n => ⟨leb128_decode_leb128 n, leb128_shaped_leb128 n,
    fun bs h1 h2 => leb128_minimal n bs h1 h2⟩,
   leb128_zero, leb128_300⟩

theorem C3_witness :
    leb128_shaped [172, 130, 0] = true ∧ leb128_decode [172, 130, 0] = 300 ∧
    (leb128 300).length ≤ ([172, 130, 0] : List Nat).length :=
  ⟨by decide, by decide,
   (C3_leb128_minimal_roundtrip.1 300).2.2 [172, 130, 0] (by decide) (by decide)⟩

/-- C4: for a label of fewer than 256 UTF-8 bytes, the block builder returns
exactly tag byte `0`, then the base-128 prefix of the content length
`1 + length label + length payload`, then the content
`[length label] ++ label ++ payload`. -/
theorem C4_section_layout (name data : List Nat) (h : name.length < 256) :
    create_custom_section name data =
      some (0 :: (leb128 (1 + name.length + data.length)
        ++ (name.length :: (name ++ data)))) := by
  simp only [create_custom_section, if_pos h]
  have hc : (name.length :: (name ++ data)).length = 1 + name.length + data.length := by
    simp only [List.length_cons, List.length_append]
    omega
  rw [hc]

theorem C4_witness :
    ([97] : List Nat).length < 256 ∧
    create_custom_section [97] [5, 6] =
      some (0 :: (leb128 (1 + ([97] : List Nat).length + ([5, 6] : List Nat).length)
        ++ (([97] : List Nat).length :: ([97] ++ [5, 6])))) :=
  ⟨by decide, C4_section_layout [97] [5, 6] (by decide)⟩

/-- C5: for `1 ≤ i < 2^32`, the uniqueness generator's payload is the 32
random bytes followed by the 4-byte little-endian encoding of `i` (which
decodes back to `i`), and its label is `unique_` followed by `i` in decimal
(the digit string evaluates back to `i`). -/
theorem C5_unique_payload_label (rand : Nat → List Nat) (i : Nat)
    (h1 : 1 ≤ i) (h2 : i < 4294967296) (hr : (rand i).length = 32) :
    unique_data rand i = some (rand i ++ pack4 i) ∧
    (rand i ++ pack4 i).take 32 = rand i ∧
    (rand i ++ pack4 i).drop 32 = pack4 i ∧
    (pack4 i).length = 4 ∧
    le32_val (pack4 i) = i ∧
    labelBytes i = [117, 110, 105, 113, 117, 101, 95] ++ decimalBytes i ∧
    decVal (decimalBytes i) = i := by
  refine ⟨?_, ?_, ?_, ?_, ?_, rfl, decVal_decimalBytes i⟩
  · simp [unique_data, pack_LE_I, h2]
  · rw [List.take_left' hr]
  · rw [List.drop_left' hr]
  · simp [pack4]
  · exact le32_val_pack4 i h2

theorem C5_witness :
    1 ≤ 1 ∧ 1 < 4294967296 ∧ ((fun _ : Nat => List.replicate 32 7) 1).length = 32 ∧
    unique_data (fun _ : Nat => List.replicate 32 7) 1
      = some ((fun _ : Nat => List.replicate 32 7) 1 ++ pack4 1) :=
  ⟨by decide, by decide, by decide,
   (C5_unique_payload_label (fun _ : Nat => List.replicate 32 7) 1
     (by decide) (by decide) (by decide)).1⟩

/-- C6: distinct in-range indices give distinct payloads even when the random
source returns the same bytes for both iterations, because the trailing
little-endian index bytes differ. -/
theorem C6_payloads_distinct (rand : Nat → List Nat) (i j : Nat)
    (h1i : 1 ≤ i) (h2i : i < 4294967296) (h1j : 1 ≤ j) (h2j : j < 4294967296)
    (hne : i ≠ j) (hr : rand i = rand j) :
    unique_data rand i ≠ unique_data rand j := by
  intro heq
  have ei : unique_data rand i = some (rand i ++ pack4 i) := by
    simp [unique_data, pack_LE_I, h2i]
  have ej : unique_data rand j = some (rand j ++ pack4 j) := by
    simp [unique_data, pack_LE_I, h2j]
  rw [ei, ej, hr] at heq
  have happ : rand j ++ pack4 i = rand j ++ pack4 j := Option.some.inj heq
  have hp := List.append_cancel_left happ
  apply hne
  rw [← le32_val_pack4 i h2i, hp, le32_val_pack4 j h2j]

theorem C6_witness :
    (1 : Nat) ≠ 2 ∧
    (fun _ : Nat => List.replicate 32 7) 1 = (fun _ : Nat => List.replicate 32 7) 2 ∧
    unique_data (fun _ : Nat => List.replicate 32 7) 1
      ≠ unique_data (fun _ : Nat => List.replicate 32 7) 2 :=
  ⟨by decide, rfl,
   C6_payloads_distinct (fun _ : Nat => List.replicate 32 7) 1 2
     (by decide) (by decide) (by decide) (by decide) (by decide) rfl⟩

/-- C7 counterexample: at a 256-byte label the builder does not produce any
block — `bytes([name_len])` raises `ValueError` (the `none` branch), so no
truncated block is returned, contradicting the claim at this input. -/
theorem C7_counterexample :
    create_custom_section (List.replicate 256 97) [] = none := by
  simp only [create_custom_section, List.length_replicate]
  rw [if_neg (by omega)]

/-- C7 as amended: for every label whose UTF-8 encoding exceeds 255 bytes the
builder raises (returns no block) instead of truncating the one-byte
label-length field. -/
theorem C7_amended_raises (name data : List Nat) (h : 255 < name.length) :
    create_custom_section name data = none := by
  simp only [create_custom_section]
  rw [if_neg (by omega)]

theorem C7_witness :
    255 < (List.replicate 300 97 : List Nat).length ∧
    create_custom_section (List.replicate 300 97) [1] = none :=
  ⟨by rw [List.length_replicate]; omega,
   C7_amended_raises (List.replicate 300 97) [1] (by rw [List.length_replicate]; omega)⟩

/-- C10: the splicer is total on sources shorter than 8 bytes — the whole
source becomes the header, the remainder is empty, the output is
`source ++ block` — and the length invariant holds at every source length. -/
theorem C10_short_source_total :
    (∀ w b : List Nat, w.length < 8 → add_custom_section w b = w ++ b) ∧
    (∀ w b : List Nat, (add_custom_section w b).length = w.length + b.length) := by
  constructor
  · intro w b h
    rw [add_custom_section, List.take_of_length_le (by omega),
      List.drop_of_length_le (by omega), List.append_nil]
  · intro w b
    simp only [add_custom_section, List.length_append, List.length_take, List.length_drop]
    omega

theorem C10_witness :
    ([1, 2] : List Nat).length < 8 ∧
    add_custom_section [1, 2] [9] = [1, 2] ++ [9] :=
  ⟨by decide, C10_short_source_total.1 [1, 2] [9] (by decide)⟩

/-- C8 counterexample: at `count = 2^32` the run aborts — iteration
`i = 2^32` makes `struct.pack('<I', i)` raise — so no manifest (and not
`count` files) is produced, contradicting the claim's unrestricted
"every count N >= 1". -/
theorem C8_counterexample :
    generate_unique_wasm (fun _ => List.replicate 32 0) [] [] [] 4294967296
      = none := by
  rw [generate_unique_wasm,
    run_iters_overflow (fun _ => List.replicate 32 0) [] [] 4294967296 1
      ⟨[], [], []⟩ (by omega) (by omega)]

/-- C8 as amended: for every count `N` with `1 ≤ N < 2^32` and every prefix,
the run writes exactly `N` files named `prefix_<index zero-padded to 5
digits>.wasm` (pairwise distinct for distinct indices up to 99999) and then a
manifest with exactly `N` records, each holding the output path and the
64-character hex SHA-256 digest of that file's bytes, rendered as
tab-separated lines. -/
theorem C8_run_files_manifest (rand : Nat → List Nat) (source dir pfx : List Nat)
    (count : Nat) (h1 : 1 ≤ count) (h2 : count < 4294967296) :
    ∃ (st : RunState) (mw : List Nat × List Nat),
      generate_unique_wasm rand source dir pfx count = some (st, mw) ∧
      st.writes.length = count ∧
      st.writes.map Prod.fst
        = (List.range' 1 count).map (fun i => path_join dir (filenameBytes pfx i)) ∧
      (∀ i j : Nat, i ≠ j → i ≤ 99999 → j ≤ 99999 →
        filenameBytes pfx i ≠ filenameBytes pfx j) ∧
      st.manifest.length = count ∧
      st.manifest = st.writes.map (fun w => (w.1, sha256_hexdigest w.2)) ∧
      (∀ pr ∈ st.manifest, pr.2.length = 64 ∧ ∀ c ∈ pr.2, isHexDigit c = true) ∧
      mw = (path_join dir manifestName,
        (st.manifest.map (fun pr => pr.1 ++ 9 :: (pr.2 ++ [10]))).flatten) := by
  refine ⟨_, _, generate_unique_wasm_eq rand source dir pfx count h2,
    ?_, ?_, ?_, ?_, ?_, ?_, ?_⟩
  · simp
  · simp only [List.map_map]
    rfl
  · intro i j hne hi hj heq
    exact hne (filenameBytes_inj pfx i j heq)
  · simp
  · simp only [List.map_map]
    rfl
  · intro pr hpr
    simp only [List.mem_map] at hpr
    obtain ⟨j, hj, rfl⟩ := hpr
    exact ⟨sha256_hexdigest_length _, sha256_hexdigest_hex _⟩
  · rfl

theorem C8_witness :
    1 ≤ 1 ∧ 1 < 4294967296 ∧
    ∃ (st : RunState) (mw : List Nat × List Nat),
      generate_unique_wasm (fun _ => List.replicate 32 0) [0, 97] [111] [117] 1
        = some (st, mw) ∧
      st.writes.length = 1 ∧ st.manifest.length = 1 := by
  refine ⟨by decide, by decide, ?_⟩
  obtain ⟨st, mw, hrun, hw, _, _, hm, _⟩ :=
    C8_run_files_manifest (fun _ => List.replicate 32 0) [0, 97] [111] [117] 1
      (by decide) (by decide)
  exact ⟨st, mw, hrun, hw, hm⟩

/-- C9: the splicer is pure and the loop never mutates the source buffer —
threading the source through the loop state, every completed run returns the
state with the source component unchanged, and every written file is the
splice of the original source bytes with that iteration's section. -/
theorem C9_source_never_mutated :
    (∀ (rand : Nat → List Nat) (dir pfx : List Nat) (i k : Nat)
        (st st' : RunState),
       run_iters rand dir pfx i k st = some st' →
       st'.source_data = st.source_data) ∧
    (∀ (rand : Nat → List Nat) (source dir pfx : List Nat) (count : Nat),
       count < 4294967296 →
       ∃ (st : RunState) (mw : List Nat × List Nat),
         generate_unique_wasm rand source dir pfx count = some (st, mw) ∧
         st.source_data = source ∧
         st.writes.map Prod.snd = (List.range' 1 count).map
           (fun i => add_custom_section source (section_bytes rand i))) := by
  constructor
  · intro rand dir pfx i k
    induction k generalizing i with
    | zero =>
      intro st st' hrun
      rw [run_iters] at hrun
      cases hrun
      rfl
    | succ k ih =>
      intro st st' hrun
      rw [run_iters] at hrun
      cases hg : gen_step rand st.source_data dir pfx i with
      | none => rw [hg] at hrun; cases hrun
      | some wm =>
        rw [hg] at hrun
        dsimp only at hrun
        exact ih (i + 1) ⟨st.source_data, st.writes ++ [wm.1],
          st.manifest ++ [wm.2]⟩ st' hrun
  · intro rand source dir pfx count h
    refine ⟨_, _, generate_unique_wasm_eq rand source dir pfx count h, rfl, ?_⟩
    simp only [List.map_map]
    rfl

theorem C9_witness :
    ∃ (st : RunState) (mw : List Nat × List Nat),
      generate_unique_wasm (fun _ => List.replicate 32 0) [3, 1, 4] [] [] 2
        = some (st, mw) ∧
      st.source_data = [3, 1, 4] ∧
      st.writes.map Prod.snd = (List.range' 1 2).map
        (fun i => add_custom_section [3, 1, 4]
          (section_bytes (fun _ => List.replicate 32 0) i)) :=
  C9_source_never_mutated.2 (fun _ => List.replicate 32 0) [3, 1, 4] [] [] 2
    (by decide)
